import Mathlib

/-!
Verification of the mgdb-migrator migration engine.

This development is a shallow embedding of the `Migration` class of
`src/migration.ts` (the semver-versioned engine: `add`, `up`, `down`,
`execute`, `lock`/`unlock`, `getControl`/`setControl`,
`findIndexByVersion`, `getMigrations`, `reset`), together with the
`add` validation of the integer-versioned variant of the engine.

Modelling conventions:
* A migration step's `up`/`down` function is opaque to the engine; the
  engine only observes whether an invocation resolves or rejects and, on
  rejection, the error message.  Each embedded step therefore carries the
  outcome (`Except String Unit`) of invoking its `up` and its `down`.
* The mongodb `migrations` collection is reduced to the single `control`
  document the engine reads and writes (`Option Control`); writes are
  always acknowledged.  The `lockedAt` timestamp is real time and is not
  modelled; only the `locked` flag and `version` field are.
* Runs additionally return the chronological list of store/step events
  (`Ev`), which makes ordering claims (which steps ran, when the lock
  was taken) provable.
-/

namespace Mgdb

/-- A parsed strict semver triple `major.minor.patch`. -/
structure SemVer where
  major : Nat
  minor : Nat
  patch : Nat
deriving DecidableEq, Repr

/-- Modelled from the spec: strict parsing of one numeric component of a
version string (a non-empty digit string with no leading zeros), as done
by the external `semver` library the source delegates to. -/
def parseNatStrict (s : List Char) : Option Nat :=
  if s = [] then none
  else if s.all (·.isDigit) then
    if s.length > 1 ∧ s.head? = some '0' then none
    else some (s.foldl (fun n c => n * 10 + (c.toNat - '0'.toNat)) 0)
  else none

/-- Split a character list on `'.'` separators. -/
def splitOnDot : List Char → List (List Char)
  | [] => [[]]
  | c :: rest =>
      if c = '.' then [] :: splitOnDot rest
      else
        match splitOnDot rest with
        | [] => [[c]]
        | h :: t => (c :: h) :: t

/-- Modelled from the spec: the external `semver` library's validation of a
version string, restricted per the spec to an exact `major.minor.patch`
triple of non-negative integers (no ranges, no prefix, no pre-release or
build metadata). Returns the parsed triple on success. -/
def parseSemVer (s : String) : Option SemVer :=
  match (splitOnDot s.data).map parseNatStrict with
  | [some a, some b, some c] => some ⟨a, b, c⟩
  | _ => none

/-- Modelled from the spec: the `semver` library's three-way comparison,
as a strict lexicographic order on parsed triples. -/
def svLt (a b : SemVer) : Prop :=
  a.major < b.major ∨
    (a.major = b.major ∧
      (a.minor < b.minor ∨ (a.minor = b.minor ∧ a.patch < b.patch)))

instance (a b : SemVer) : Decidable (svLt a b) := by
  unfold svLt
  exact inferInstance

/-- Non-strict companion of `svLt`. -/
def svLe (a b : SemVer) : Prop := ¬ svLt b a

instance (a b : SemVer) : Decidable (svLe a b) := by
  unfold svLe
  exact inferInstance

/-- The reserved zero version `0.0.0`. -/
def zeroVer : SemVer := ⟨0, 0, 0⟩

theorem svLt_irrefl (a : SemVer) : ¬ svLt a a := by
  unfold svLt
  omega

theorem svLt_asymm {a b : SemVer} : svLt a b → ¬ svLt b a := by
  unfold svLt
  omega

theorem svLt_trans {a b c : SemVer} : svLt a b → svLt b c → svLt a c := by
  unfold svLt
  omega

theorem svLt_total (a b : SemVer) : svLt a b ∨ a = b ∨ svLt b a := by
  obtain ⟨ma, mi, pa⟩ := a
  obtain ⟨mb, mib, pb⟩ := b
  simp only [svLt, SemVer.mk.injEq]
  omega

/-- Direction of a run, mirroring the `'up' | 'down'` union in the source. -/
inductive Direction where
  | up
  | down
deriving DecidableEq, Repr

deriving instance DecidableEq for Except

/-- An embedded migration step.  The `upIsFn`, `downIsFn` and
`versionIsString` flags model the dynamic `typeof` checks performed by
`Migration.add` on the untyped input object; `upR`/`downR` are the
outcomes of invoking the step's `up`/`down` function. -/
structure Mig where
  upIsFn : Bool := true
  downIsFn : Bool := true
  versionIsString : Bool := true
  version : String
  name : String := ""
  upR : Except String Unit := .ok ()
  downR : Except String Unit := .ok ()
deriving DecidableEq, Repr

/-- The synthetic base migration at version `0.0.0` installed by the
`Migration` constructor (`initialMigration` in the source). -/
def initialMigration : Mig :=
  { version := "0.0.0", name := "v0" }

/-- The error taxonomy of the engine.  Each constructor corresponds to one
`throw new Error(...)` site in the source; `msgOf` reproduces the message. -/
inductive MigErr where
  | validation (msg : String)
  | invalidSemver (v : String)
  | notConfigured
  | notFound (v : String)
  | directionErr (dir : Direction) (current target : String)
  | stepFailed (prev dest cause : String)
deriving DecidableEq, Repr

/-- The message carried by each thrown `Error`, as written in the source. -/
def msgOf : MigErr → String
  | .validation m => m
  | .invalidSemver v => s!"invalid semver: {v}"
  | .notConfigured =>
      "Migration is not configured.  Ensure Migration.config() has been called"
  | .notFound v => s!"migration version {v} not found"
  | .directionErr .up c t => s!"current version {c} > target version {t}"
  | .directionErr .down c t => s!"current version {c} < target version {t}"
  | .stepFailed p d c => s!"migration from {p} to {d}: {c}"

/-- The persisted control document (`_id: 'control'`): the recorded
current version and the advisory lock flag. -/
structure Control where
  version : String
  locked : Bool
deriving DecidableEq, Repr

/-- The migrations collection, reduced to its single control document
(`none` = the document does not exist yet). -/
abbrev Store := Option Control

/-- Chronological events of a run, used to state ordering properties. -/
inductive Ev where
  | lockAttempt (acquired : Bool)
  | step (dir : Direction) (version : String)
  | writeVersion (version : String)
  | unlock
deriving DecidableEq, Repr

/-- The step invocations recorded in an event list, in order. -/
def stepsOf (evs : List Ev) : List (Direction × String) :=
  evs.filterMap fun e =>
    match e with
    | .step d v => some (d, v)
    | _ => none

/-- `Migration.lock`: `findOneAndUpdate({_id: 'control', locked: false},
{$set: {locked: true, lockedAt: ...}})`.  Returns whether the conditional
update matched (the lock was acquired) and the resulting store. -/
def lockStore (s : Store) : Bool × Store :=
  match s with
  | some c => if c.locked = false then (true, some ⟨c.version, true⟩) else (false, some c)
  | none => (false, none)

/-- `Migration.unlock`: `updateOne({_id: 'control'}, {$set: {locked:
false}})` (no upsert). -/
def unlockStore (s : Store) : Store :=
  s.map fun c => ⟨c.version, false⟩

/-- `Migration.getControl`: read the control document, creating it at
version `0.0.0`, unlocked, if absent (via `setControl`'s upsert). -/
def getControlStore (s : Store) : Control × Store :=
  match s with
  | some c => (c, some c)
  | none => (⟨"0.0.0", false⟩, some ⟨"0.0.0", false⟩)

/-- `Migration.updateVersion`: `setControl({locked: true, version})`, an
upsert overwriting both fields. -/
def updateVersionStore (v : String) (_s : Store) : Store :=
  some ⟨v, true⟩

/-- `Migration.findIndexByVersion`: linear scan for an exact (string
equality) version match; `none` models the `not found` throw. -/
def findIndexByVersion : List Mig → String → Option Nat
  | [], _ => none
  | m :: rest, v =>
      if m.version = v then some 0
      else (findIndexByVersion rest v).map (· + 1)

/-- The `up` stepping loop of `Migration.execute`: `for (i = startIdx;
i < endIdx; i++)` invoke `migrations[i+1].up`, then persist its version
(`updateVersion`, keeping `locked = true`); on a rejection stop and throw
`migration from <prev> to <dest>: <cause>`.  The loop is phrased with the
remaining iteration count `endIdx - i` as explicit fuel. -/
def upSteps (migs : List Mig) :
    Nat → Nat → Store → Except MigErr Unit × Store × List Ev
  | 0, _, store => (.ok (), store, [])
  | fuel + 1, i, store =>
      let step := migs.getD (i + 1) initialMigration
      match step.upR with
      | .ok _ =>
          let r := upSteps migs fuel (i + 1) (updateVersionStore step.version store)
          (r.1, r.2.1, Ev.step .up step.version :: Ev.writeVersion step.version :: r.2.2)
      | .error msg =>
          (.error (.stepFailed (migs.getD i initialMigration).version step.version msg),
            store, [Ev.step .up step.version])

/-- The `down` stepping loop of `Migration.execute`: `for (i = startIdx;
i > endIdx; i--)` invoke `migrations[i].down`, then persist
`migrations[i-1].version`; on a rejection stop and throw.  Fuel is the
remaining iteration count `i - endIdx`. -/
def downSteps (migs : List Mig) :
    Nat → Nat → Store → Except MigErr Unit × Store × List Ev
  | 0, _, store => (.ok (), store, [])
  | fuel + 1, i, store =>
      let step := migs.getD i initialMigration
      match step.downR with
      | .ok _ =>
          let v := (migs.getD (i - 1) initialMigration).version
          let r := downSteps migs fuel (i - 1) (updateVersionStore v store)
          (r.1, r.2.1, Ev.step .down step.version :: Ev.writeVersion v :: r.2.2)
      | .error msg =>
          (.error (.stepFailed step.version (migs.getD (i - 1) initialMigration).version msg),
            store, [Ev.step .down step.version])

/-- `Migration.execute`: target validation, configuration check, empty
registry no-op, control read, already-at-target no-op, index resolution,
direction check, then the stepping loop.  `cfg` models whether
`Migration.config` established a live connection (`this.db`).  Note that
comparing an unparseable recorded current version is an error, mirroring
the `semver` library throwing on invalid input. -/
def execute (cfg : Bool) (migs : List Mig) (dir : Direction) (target : String)
    (store : Store) : Except MigErr Unit × Store × List Ev :=
  match parseSemVer target with
  | none => (.error (.invalidSemver target), store, [])
  | some tv =>
    if cfg = false then (.error .notConfigured, store, [])
    else if migs.length ≤ 1 then (.ok (), store, [])
    else
      let gc := getControlStore store
      let cur := gc.1.version
      match parseSemVer cur with
      | none => (.error (.invalidSemver cur), gc.2, [])
      | some cv =>
        if cv = tv then (.ok (), gc.2, [])
        else
          match findIndexByVersion migs cur with
          | none => (.error (.notFound cur), gc.2, [])
          | some startIdx =>
            match findIndexByVersion migs target with
            | none => (.error (.notFound target), gc.2, [])
            | some endIdx =>
              match dir with
              | .up =>
                  if svLt tv cv then (.error (.directionErr .up cur target), gc.2, [])
                  else upSteps migs (endIdx - startIdx) startIdx gc.2
              | .down =>
                  if svLt cv tv then (.error (.directionErr .down cur target), gc.2, [])
                  else downSteps migs (startIdx - endIdx) startIdx gc.2

/-- The `'latest'` resolution at the top of `Migration.up`:
`last(this.migrations).version`.  The registry always holds at least the
synthetic base migration, so `getLast?` never misses in practice. -/
def resolveLatest (migs : List Mig) (version : String) : String :=
  if version = "latest" then ((migs.getLast?).map Mig.version).getD "" else version

/-- `Migration.up`: resolve `'latest'`, then `try { lock(); execute('up',
target) } finally { unlock() }`.  The boolean result of `lock()` is
discarded, exactly as in the source.  The `catch` block only logs before
rethrowing and has no semantic effect on the result. -/
def upRun (cfg : Bool) (migs : List Mig) (version : String) (s0 : Store) :
    Except MigErr Unit × Store × List Ev :=
  let target := resolveLatest migs version
  let l := lockStore s0
  let e := execute cfg migs .up target l.2
  (e.1, unlockStore e.2.1, Ev.lockAttempt l.1 :: (e.2.2 ++ [Ev.unlock]))

/-- `Migration.down`: `try { lock(); execute('down', version) } finally
{ unlock() }`; no `'latest'` resolution. -/
def downRun (cfg : Bool) (migs : List Mig) (version : String) (s0 : Store) :
    Except MigErr Unit × Store × List Ev :=
  let l := lockStore s0
  let e := execute cfg migs .down version l.2
  (e.1, unlockStore e.2.1, Ev.lockAttempt l.1 :: (e.2.2 ++ [Ev.unlock]))

/-- A run in either direction (dispatches to `Migration.up` /
`Migration.down`). -/
def run (dir : Direction) (cfg : Bool) (migs : List Mig) (version : String)
    (s0 : Store) : Except MigErr Unit × Store × List Ev :=
  match dir with
  | .up => upRun cfg migs version s0
  | .down => downRun cfg migs version s0

/-- The semver key the registry is ordered by (`semver.compare`); every
registered entry parses, so the default is never consulted in practice. -/
def versionKey (m : Mig) : SemVer := (parseSemVer m.version).getD zeroVer

/-- One insertion of the stable sort performed by
`this.migrations.sort(semver.compare)`: a new entry is placed before the
first strictly greater entry, after equal ones (JS `Array.sort` is
stable). -/
def insertByVersion (m : Mig) : List Mig → List Mig
  | [] => [m]
  | a :: t =>
      if svLt (versionKey m) (versionKey a) then m :: a :: t
      else a :: insertByVersion m t

/-- The registry sort `this.migrations.sort((a, b) =>
semver.compare(a.version, b.version))`, as a stable insertion sort
(elements are inserted left to right, each placed after any entry with
an equal key, matching the stability of JS `Array.sort`). -/
def sortByVersion (l : List Mig) : List Mig :=
  l.foldl (fun acc m => insertByVersion m acc) []

/-- `Migration.add` (semver engine): validate `up`/`down` are functions
and `version` is a valid semver string strictly greater than `0.0.0`,
then push and re-sort.  Errors model the thrown `Error`s. -/
def add (migs : List Mig) (m : Mig) : Except MigErr (List Mig) :=
  if m.upIsFn = false then
    .error (.validation "migration must supply an up function")
  else if m.downIsFn = false then
    .error (.validation "migration must supply a down function")
  else
    match (if m.versionIsString = false then none else parseSemVer m.version) with
    | none => .error (.validation "migration must supply a SemVer version string")
    | some mv =>
      if svLt zeroVer mv then .ok (sortByVersion (migs ++ [m]))
      else .error (.validation "migration version must be greater than 0.0.0")

/-- Registering several steps in sequence (repeated `Migration.add`). -/
def addAll (migs : List Mig) : List Mig → Except MigErr (List Mig)
  | [] => .ok migs
  | m :: rest =>
      match add migs m with
      | .error e => .error e
      | .ok migs' => addAll migs' rest

/-- The registry as built by the `Migration` constructor. -/
def registryStart : List Mig := [initialMigration]

/-- `Migration.reset`: restore the registry to just the synthetic base
migration (the collection wipe is `deleteMany({})`, i.e. the store
becomes empty). -/
def resetRegistry : List Mig := [initialMigration]

/-- `Migration.getMigrations`: all entries except the synthetic base
migration at index 0 (`this.migrations.slice(1)`). -/
def getMigrations (migs : List Mig) : List Mig := migs.drop 1

/-- An embedded migration step of the integer-versioned engine variant;
the flags model the dynamic `ow` type checks of its `add`. -/
structure MigInt where
  upIsFn : Bool := true
  downIsFn : Bool := true
  versionIsNumber : Bool := true
  version : Int
  nameIsString : Bool := true
deriving DecidableEq, Repr

/-- One insertion of the integer registry sort. -/
def insertIntByVersion (m : MigInt) : List MigInt → List MigInt
  | [] => [m]
  | a :: t => if m.version < a.version then m :: a :: t else a :: insertIntByVersion m t

/-- The integer registry sort `(a, b) => a.version - b.version`. -/
def sortIntByVersion : List MigInt → List MigInt
  | [] => []
  | a :: t => insertIntByVersion a (sortIntByVersion t)

/-- `Migration.add` of the integer-versioned engine variant: `ow` checks
that `up` and `down` are functions, `version` is a number strictly
greater than 0 and `name` is a string, then push and re-sort.  `ow`
failures throw `ArgumentError`s, modelled as validation errors. -/
def addInt (migs : List MigInt) (m : MigInt) : Except MigErr (List MigInt) :=
  if m.upIsFn = false then
    .error (.validation "Expected argument `up` to be of type `function`")
  else if m.downIsFn = false then
    .error (.validation "Expected argument `down` to be of type `function`")
  else if m.versionIsNumber = false ∨ m.version ≤ 0 then
    .error (.validation "Expected number `version` to be greater than 0")
  else if m.nameIsString = false then
    .error (.validation "Expected argument `name` to be of type `string`")
  else .ok (sortIntByVersion (migs ++ [m]))

/-- The target string a run actually validates: `up` first resolves the
`'latest'` sentinel, `down` takes its argument as-is. -/
def resolvedTarget (dir : Direction) (migs : List Mig) (target : String) : String :=
  match dir with
  | .up => resolveLatest migs target
  | .down => target

/-- The shape of a step failure reported by the stepping loops: the
`prev`/`dest` versions named by the error are adjacent registry entries
around the failing step, and `cause` is the failing step function's own
error.  For `up` the failing step is the entry at `j + 1` (its `up`
rejected); for `down` it is the entry at `j` (its `down` rejected) and
the destination is the entry below it. -/
def stepFailedShape (dir : Direction) (migs : List Mig) (p d c : String) : Prop :=
  match dir with
  | .up => ∃ j,
      (migs.getD j initialMigration).version = p ∧
      (migs.getD (j + 1) initialMigration).version = d ∧
      (migs.getD (j + 1) initialMigration).upR = .error c
  | .down => ∃ j,
      (migs.getD j initialMigration).version = p ∧
      (migs.getD j initialMigration).downR = .error c ∧
      (migs.getD (j - 1) initialMigration).version = d

/-- The version of the step whose function was invoked and failed, as it
appears in the run's step-event trace: for `up` the failing step is the
destination entry, for `down` it is the entry being stepped down from
(the `prev` of the error message). -/
def failingStepVersion (dir : Direction) (p d : String) : String :=
  match dir with
  | .up => d
  | .down => p

/-- Registry ordering: ascending by semver key. -/
def sortedByVersion (l : List Mig) : Prop :=
  l.Pairwise fun a b => svLe (versionKey a) (versionKey b)

/-- Registry ordering, strict: no two entries share a version. -/
def strictSortedByVersion (l : List Mig) : Prop :=
  l.Pairwise fun a b => svLt (versionKey a) (versionKey b)

/-- The registry invariant claimed by the spec: sorted ascending, the
synthetic zero step at index 0, and no two entries sharing a version. -/
def registryInvariant (l : List Mig) : Prop :=
  l.head? = some initialMigration ∧ sortedByVersion l ∧ (l.map versionKey).Nodup

/-- The conditions under which `Migration.add` (semver engine) accepts a
step: callable `up` and `down`, a string version parsing as a semver
strictly greater than the reserved zero version. -/
def validStep (m : Mig) : Prop :=
  m.upIsFn = true ∧ m.downIsFn = true ∧ m.versionIsString = true ∧
  ∃ sv, parseSemVer m.version = some sv ∧ svLt zeroVer sv

/-- The conditions under which the integer-variant `add` accepts a step
(aside from its additional `name` type check): callable `up` and `down`,
a numeric version strictly greater than 0. -/
def validStepInt (m : MigInt) : Prop :=
  m.upIsFn = true ∧ m.downIsFn = true ∧ m.versionIsNumber = true ∧ 0 < m.version

/- Concrete instances used by witnesses and counterexamples. -/

/-- A registered step at version `0.0.1` whose transforms succeed. -/
def mig001 : Mig := { version := "0.0.1", name := "v1" }

/-- A registered step at version `0.1.2` whose transforms succeed. -/
def mig012 : Mig := { version := "0.1.2", name := "v2" }

/-- A registered step at version `1.0.4` whose transforms succeed. -/
def mig104 : Mig := { version := "1.0.4", name := "v4" }

/-- A step at version `0.1.2` whose `up` function rejects. -/
def mig012fail : Mig := { version := "0.1.2", name := "v2", upR := .error "boom" }

/-- A second step reusing version `0.0.1` (a duplicate registration). -/
def mig001dup : Mig := { version := "0.0.1", name := "v1-again" }

/-- A registry with two healthy registered steps. -/
def regOk : List Mig := [initialMigration, mig001, mig012]

/-- A registry whose second registered step fails on `up`. -/
def regFail : List Mig := [initialMigration, mig001, mig012fail]

@[simp] theorem stepsOf_nil : stepsOf [] = [] := rfl

@[simp] theorem stepsOf_cons_lockAttempt (b : Bool) (l : List Ev) :
    stepsOf (Ev.lockAttempt b :: l) = stepsOf l := rfl

@[simp] theorem stepsOf_cons_step (d : Direction) (v : String) (l : List Ev) :
    stepsOf (Ev.step d v :: l) = (d, v) :: stepsOf l := rfl

@[simp] theorem stepsOf_cons_writeVersion (v : String) (l : List Ev) :
    stepsOf (Ev.writeVersion v :: l) = stepsOf l := rfl

@[simp] theorem stepsOf_cons_unlock (l : List Ev) :
    stepsOf (Ev.unlock :: l) = stepsOf l := rfl

@[simp] theorem stepsOf_append (l1 l2 : List Ev) :
    stepsOf (l1 ++ l2) = stepsOf l1 ++ stepsOf l2 := by
  simp [stepsOf, List.filterMap_append]

theorem unlockStore_locked {s : Store} {c : Control} (h : unlockStore s = some c) :
    c.locked = false := by
  cases s with
  | none => simp [unlockStore] at h
  | some c0 =>
      have h' : some (⟨c0.version, false⟩ : Control) = some c := h
      injection h' with h''
      subst h''
      rfl

/-- C2: every `up`/`down` run, whatever its outcome, ends by unlocking:
if the control document exists after the call, its `locked` flag is
`false`. -/
theorem c2_lock_always_released (dir : Direction) (cfg : Bool) (migs : List Mig)
    (target : String) (s0 : Store) (c : Control)
    (h : (run dir cfg migs target s0).2.1 = some c) : c.locked = false := by
  cases dir <;>
    · simp only [run, upRun, downRun] at h
      exact unlockStore_locked h

theorem c2_lock_always_released_witness :
    (run .up true regOk "latest" (some ⟨"0.0.0", false⟩)).2.1
      = some ⟨"0.1.2", false⟩ ∧
    (⟨"0.1.2", false⟩ : Control).locked = false :=
  ⟨by decide,
   c2_lock_always_released .up true regOk "latest" (some ⟨"0.0.0", false⟩)
     ⟨"0.1.2", false⟩ (by decide)⟩

/-- C3 counterexample: with the lock already held (`locked = true`, so
the conditional lock update matches zero documents), `up` does NOT
behave as a "not migrating" no-op — it executes the migration step
anyway and commits its version. -/
theorem c3_counterexample :
    (run .up true regOk "0.0.1" (some ⟨"0.0.0", true⟩)).1 = .ok () ∧
    stepsOf (run .up true regOk "0.0.1" (some ⟨"0.0.0", true⟩)).2.2
      = [(.up, "0.0.1")] ∧
    (run .up true regOk "0.0.1" (some ⟨"0.0.0", true⟩)).2.1
      = some ⟨"0.0.1", false⟩ := by
  decide

/-- C3 amended: when the conditional lock update matches zero documents
no exception is raised, but the failed acquisition is ignored entirely —
the run proceeds exactly as if the lock had been free, with the same
outcome, the same final control document and the same executed steps. -/
theorem c3_contended_lock_ignored (dir : Direction) (cfg : Bool) (migs : List Mig)
    (target : String) (v : String) :
    (run dir cfg migs target (some ⟨v, true⟩)).1
      = (run dir cfg migs target (some ⟨v, false⟩)).1 ∧
    (run dir cfg migs target (some ⟨v, true⟩)).2.1
      = (run dir cfg migs target (some ⟨v, false⟩)).2.1 ∧
    stepsOf (run dir cfg migs target (some ⟨v, true⟩)).2.2
      = stepsOf (run dir cfg migs target (some ⟨v, false⟩)).2.2 := by
  cases dir <;> simp [run, upRun, downRun, lockStore]

theorem lockStore_some (v : String) (b : Bool) :
    lockStore (some ⟨v, b⟩) = (!b, some ⟨v, true⟩) := by
  cases b <;> rfl

theorem lockUnlock_version (s0 : Store) :
    (unlockStore (lockStore s0).2).map Control.version = s0.map Control.version := by
  cases s0 with
  | none => rfl
  | some c => by_cases hc : c.locked = false <;> simp [lockStore, unlockStore, hc]

theorem execute_early_error (cfg : Bool) (migs : List Mig) (dir : Direction)
    (target : String) (store : Store)
    (h : parseSemVer target = none ∨ cfg = false) :
    ∃ e, execute cfg migs dir target store = (.error e, store, []) ∧
      (e = .invalidSemver target ∨ e = .notConfigured) := by
  rcases hpt : parseSemVer target with _ | tv
  · exact ⟨.invalidSemver target, by simp [execute, hpt], Or.inl rfl⟩
  · rcases h with hp | hcfg
    · rw [hpt] at hp
      cases hp
    · subst hcfg
      exact ⟨.notConfigured, by simp [execute, hpt], Or.inr rfl⟩

/-- C4 counterexample: a malformed target version is rejected only AFTER
the lock has been acquired (the first event of the run is a successful
conditional lock update, which mutates the persisted `locked`/`lockedAt`
fields), contradicting "raised before the lock is acquired and before
any persisted state is mutated". -/
theorem c4_counterexample :
    (run .up true regOk "bogus" (some ⟨"0.0.0", false⟩)).1
      = .error (.invalidSemver "bogus") ∧
    (run .up true regOk "bogus" (some ⟨"0.0.0", false⟩)).2.2.head?
      = some (.lockAttempt true) := by
  decide

/-- C4 amended: a malformed (resolved) target version or a missing
connection makes the run fail with the validation / configuration error
before any migration step executes and before the recorded version is
touched — but only after the lock has been taken and released again (the
run's only state effect is the transient lock round-trip). -/
theorem c4_early_error_before_steps (dir : Direction) (cfg : Bool) (migs : List Mig)
    (target : String) (s0 : Store)
    (h : parseSemVer (resolvedTarget dir migs target) = none ∨ cfg = false) :
    (∃ e, (run dir cfg migs target s0).1 = .error e ∧
      (e = .invalidSemver (resolvedTarget dir migs target) ∨ e = .notConfigured)) ∧
    stepsOf (run dir cfg migs target s0).2.2 = [] ∧
    (run dir cfg migs target s0).2.1 = unlockStore (lockStore s0).2 ∧
    ((run dir cfg migs target s0).2.1).map Control.version
      = s0.map Control.version := by
  obtain ⟨e, he, hor⟩ :=
    execute_early_error cfg migs dir (resolvedTarget dir migs target) (lockStore s0).2 h
  cases dir with
  | up =>
      simp only [resolvedTarget] at he hor
      refine ⟨⟨e, ?_, hor⟩, ?_, ?_, ?_⟩ <;>
        simp [run, upRun, he, lockUnlock_version]
  | down =>
      simp only [resolvedTarget] at he hor
      refine ⟨⟨e, ?_, hor⟩, ?_, ?_, ?_⟩ <;>
        simp [run, downRun, he, lockUnlock_version]

theorem c4_early_error_before_steps_witness :
    (parseSemVer (resolvedTarget .up regOk "bogus") = none ∨ true = false) ∧
    (∃ e, (run .up true regOk "bogus" (some ⟨"0.0.0", false⟩)).1 = .error e ∧
      (e = .invalidSemver (resolvedTarget .up regOk "bogus") ∨ e = .notConfigured)) ∧
    stepsOf (run .up true regOk "bogus" (some ⟨"0.0.0", false⟩)).2.2 = [] ∧
    (run .up true regOk "bogus" (some ⟨"0.0.0", false⟩)).2.1
      = unlockStore (lockStore (some ⟨"0.0.0", false⟩)).2 ∧
    ((run .up true regOk "bogus" (some ⟨"0.0.0", false⟩)).2.1).map Control.version
      = (some (⟨"0.0.0", false⟩ : Control)).map Control.version :=
  ⟨Or.inl (by decide),
   c4_early_error_before_steps .up true regOk "bogus" (some ⟨"0.0.0", false⟩)
     (Or.inl (by decide))⟩

/-- C10: with no caller-registered migrations, `up('latest')` resolves
the target to the reserved zero version `0.0.0` and returns successfully
as a no-op (the "no migrations are pending" warning path), executing
zero steps. -/
theorem c10_latest_on_empty_registry (s : Store) :
    resolveLatest [initialMigration] "latest" = "0.0.0" ∧
    (run .up true [initialMigration] "latest" s).1 = .ok () ∧
    stepsOf (run .up true [initialMigration] "latest" s).2.2 = [] := by
  have hres : resolveLatest [initialMigration] "latest" = "0.0.0" := by decide
  have hp : parseSemVer "0.0.0" = some zeroVer := by decide
  refine ⟨hres, ?_, ?_⟩ <;>
    simp [run, upRun, hres, execute, hp]

theorem parseSemVer_latest : parseSemVer "latest" = none := by decide

theorem resolveLatest_of_parse {migs : List Mig} {v : String} {sv : SemVer}
    (hp : parseSemVer v = some sv) : resolveLatest migs v = v := by
  have hne : v ≠ "latest" := by
    intro hv
    rw [hv, parseSemVer_latest] at hp
    cases hp
  simp [resolveLatest, hne]

/-- C6: running `up(v)` or `down(v)` when the control record already
records version `v` (and is unlocked) executes zero steps, succeeds, and
leaves the control record exactly as it was; the only events are the
lock round-trip. -/
theorem c6_already_at_target (dir : Direction) (migs : List Mig) (v : String)
    (sv : SemVer) (hp : parseSemVer v = some sv) :
    run dir true migs v (some ⟨v, false⟩)
      = (.ok (), some ⟨v, false⟩, [.lockAttempt true, .unlock]) := by
  have hres : resolveLatest migs v = v := resolveLatest_of_parse hp
  have hexec : ∀ d, execute true migs d v (some ⟨v, true⟩)
      = (.ok (), some ⟨v, true⟩, []) := by
    intro d
    by_cases hlen : migs.length ≤ 1
    · simp [execute, hp, hlen]
    · simp [execute, hp, hlen, getControlStore]
  cases dir <;>
    simp [run, upRun, downRun, hres, lockStore, hexec, unlockStore]

theorem c6_already_at_target_witness :
    parseSemVer "0.1.2" = some ⟨0, 1, 2⟩ ∧
    run .up true regOk "0.1.2" (some ⟨"0.1.2", false⟩)
      = (.ok (), some ⟨"0.1.2", false⟩, [.lockAttempt true, .unlock]) :=
  ⟨by decide, c6_already_at_target .up regOk "0.1.2" ⟨0, 1, 2⟩ (by decide)⟩

/-- C5 counterexample: `up(target)` with current > target does NOT
always fail with a `DirectionError` — when the target was never
registered, the exact-match index lookup fails first, so the run fails
with the not-found error instead (the direction check at lines 294-297
is only reached after both lookups succeed). -/
theorem c5_counterexample :
    svLt (⟨0, 0, 5⟩ : SemVer) ⟨0, 1, 2⟩ ∧
    parseSemVer "0.0.5" = some ⟨0, 0, 5⟩ ∧
    parseSemVer "0.1.2" = some ⟨0, 1, 2⟩ ∧
    (run .up true regOk "0.0.5" (some ⟨"0.1.2", false⟩)).1
      = .error (.notFound "0.0.5") ∧
    (run .up true regOk "0.0.5" (some ⟨"0.1.2", false⟩)).1
      ≠ .error (.directionErr .up "0.1.2" "0.0.5") := by
  decide

/-- C5 amended: provided the engine is configured, at least one step is
registered, and BOTH the current and the target version are found in the
registry by exact match, an `up` run whose target is below the current
version (resp. a `down` run whose target is above it) fails with the
direction error and executes no migration step; the control record keeps
its version and ends unlocked. -/
theorem c5_direction_error (dir : Direction) (migs : List Mig)
    (cur target : String) (cv tv : SemVer) (b : Bool) (si ei : Nat)
    (hc : parseSemVer cur = some cv) (ht : parseSemVer target = some tv)
    (hlen : 1 < migs.length)
    (hsi : findIndexByVersion migs cur = some si)
    (hei : findIndexByVersion migs target = some ei)
    (hdir : match dir with | .up => svLt tv cv | .down => svLt cv tv) :
    run dir true migs target (some ⟨cur, b⟩)
      = (.error (.directionErr dir cur target), some ⟨cur, false⟩,
          [.lockAttempt (!b), .unlock]) ∧
    stepsOf (run dir true migs target (some ⟨cur, b⟩)).2.2 = [] := by
  have hres : resolveLatest migs target = target := resolveLatest_of_parse ht
  have hlen' : ¬ migs.length ≤ 1 := by omega
  have hne : ¬ cv = tv := by
    intro h
    subst h
    cases dir <;> exact svLt_irrefl cv hdir
  cases dir with
  | up =>
      have hlt : svLt tv cv := hdir
      have hexec : execute true migs .up target (some ⟨cur, true⟩)
          = (.error (.directionErr .up cur target), some ⟨cur, true⟩, []) := by
        simp [execute, ht, hc, hlen', getControlStore, hne, hsi, hei, hlt]
      refine ⟨?_, ?_⟩ <;>
        simp [run, upRun, hres, lockStore_some, hexec, unlockStore]
  | down =>
      have hlt : svLt cv tv := hdir
      have hexec : execute true migs .down target (some ⟨cur, true⟩)
          = (.error (.directionErr .down cur target), some ⟨cur, true⟩, []) := by
        simp [execute, ht, hc, hlen', getControlStore, hne, hsi, hei, hlt]
      refine ⟨?_, ?_⟩ <;>
        simp [run, downRun, hexec, lockStore_some, unlockStore]

theorem c5_direction_error_witness :
    (parseSemVer "0.1.2" = some ⟨0, 1, 2⟩ ∧ parseSemVer "0.0.1" = some ⟨0, 0, 1⟩ ∧
      1 < regOk.length ∧ findIndexByVersion regOk "0.1.2" = some 2 ∧
      findIndexByVersion regOk "0.0.1" = some 1 ∧ svLt ⟨0, 0, 1⟩ ⟨0, 1, 2⟩) ∧
    run .up true regOk "0.0.1" (some ⟨"0.1.2", false⟩)
      = (.error (.directionErr .up "0.1.2" "0.0.1"), some ⟨"0.1.2", false⟩,
          [.lockAttempt true, .unlock]) ∧
    stepsOf (run .up true regOk "0.0.1" (some ⟨"0.1.2", false⟩)).2.2 = [] :=
  ⟨⟨by decide, by decide, by decide, by decide, by decide, by decide⟩,
    by
      have h := c5_direction_error .up regOk "0.1.2" "0.0.1" ⟨0, 1, 2⟩ ⟨0, 0, 1⟩
        false 2 1 (by decide) (by decide) (by decide) (by decide) (by decide)
        (by decide)
      simpa using h⟩

theorem findIndexByVersion_eq_none {migs : List Mig} {v : String}
    (h : v ∉ migs.map Mig.version) : findIndexByVersion migs v = none := by
  induction migs with
  | nil => rfl
  | cons m rest ih =>
      simp only [List.map_cons, List.mem_cons] at h
      push_neg at h
      obtain ⟨h1, h2⟩ := h
      have h1' : ¬ m.version = v := fun hv => h1 hv.symm
      simp [findIndexByVersion, h1', ih h2]

/-- C8 counterexample: requesting a target that was never registered
does NOT always fail with the not-found error — when the recorded
current version already equals the (unregistered) target, the
"already at version" early return makes the run succeed as a no-op. -/
theorem c8_counterexample :
    "5.0.0" ∉ regOk.map Mig.version ∧
    (run .up true regOk "5.0.0" (some ⟨"5.0.0", false⟩)).1 = .ok () := by
  decide

/-- C8 amended: provided the engine is configured, at least one step is
registered, and the recorded current version differs (as a parsed
version) from the target, requesting a target version that was never
registered fails with a not-found error from the exact-match lookup
(naming the target, or the current version if that one is unregistered
as well), executes no step, and leaves the recorded version unchanged. -/
theorem c8_unregistered_target (dir : Direction) (migs : List Mig)
    (cur target : String) (cv tv : SemVer) (b : Bool)
    (hc : parseSemVer cur = some cv) (ht : parseSemVer target = some tv)
    (hne : cv ≠ tv) (hlen : 1 < migs.length)
    (hnr : target ∉ migs.map Mig.version) :
    ∃ w, (w = target ∨ w = cur) ∧
      run dir true migs target (some ⟨cur, b⟩)
        = (.error (.notFound w), some ⟨cur, false⟩,
            [.lockAttempt (!b), .unlock]) := by
  have hres : resolveLatest migs target = target := resolveLatest_of_parse ht
  have hlen' : ¬ migs.length ≤ 1 := by omega
  have hnone : findIndexByVersion migs target = none := findIndexByVersion_eq_none hnr
  rcases hfc : findIndexByVersion migs cur with _ | si
  · refine ⟨cur, Or.inr rfl, ?_⟩
    have hexec : ∀ d, execute true migs d target (some ⟨cur, true⟩)
        = (.error (.notFound cur), some ⟨cur, true⟩, []) := by
      intro d
      simp [execute, ht, hc, hlen', getControlStore, hne, hfc]
    cases dir <;>
      simp [run, upRun, downRun, hres, lockStore_some, hexec, unlockStore]
  · refine ⟨target, Or.inl rfl, ?_⟩
    have hexec : ∀ d, execute true migs d target (some ⟨cur, true⟩)
        = (.error (.notFound target), some ⟨cur, true⟩, []) := by
      intro d
      simp [execute, ht, hc, hlen', getControlStore, hne, hfc, hnone]
    cases dir <;>
      simp [run, upRun, downRun, hres, lockStore_some, hexec, unlockStore]

theorem c8_unregistered_target_witness :
    (parseSemVer "0.0.0" = some ⟨0, 0, 0⟩ ∧ parseSemVer "7.0.0" = some ⟨7, 0, 0⟩ ∧
      (⟨0, 0, 0⟩ : SemVer) ≠ ⟨7, 0, 0⟩ ∧ 1 < regOk.length ∧
      "7.0.0" ∉ regOk.map Mig.version) ∧
    ∃ w, (w = "7.0.0" ∨ w = "0.0.0") ∧
      run .up true regOk "7.0.0" (some ⟨"0.0.0", false⟩)
        = (.error (.notFound w), some ⟨"0.0.0", false⟩,
            [.lockAttempt true, .unlock]) :=
  ⟨⟨by decide, by decide, by decide, by decide, by decide⟩,
    by
      have h := c8_unregistered_target .up regOk "0.0.0" "7.0.0" ⟨0, 0, 0⟩
        ⟨7, 0, 0⟩ false (by decide) (by decide) (by decide) (by decide) (by decide)
      simpa using h⟩

theorem findIndexByVersion_some :
    ∀ {migs : List Mig} {v : String} {i : Nat},
      findIndexByVersion migs v = some i →
      i < migs.length ∧ (migs.getD i initialMigration).version = v := by
  intro migs
  induction migs with
  | nil => intro v i h; cases h
  | cons m rest ih =>
      intro v i h
      by_cases hm : m.version = v
      · simp only [findIndexByVersion, if_pos hm, Option.some.injEq] at h
        subst h
        exact ⟨by simp, by simpa using hm⟩
      · rcases hr : findIndexByVersion rest v with _ | j
        · simp [findIndexByVersion, hm, hr] at h
        · simp only [findIndexByVersion, if_neg hm, hr, Option.map_some',
            Option.some.injEq] at h
          subst h
          obtain ⟨hlt, hver⟩ := ih hr
          exact ⟨by simpa using Nat.succ_lt_succ hlt, by simpa using hver⟩

theorem getControlStore_inv (s : Store) :
    ∃ b, (getControlStore s).2 = some ⟨(getControlStore s).1.version, b⟩ := by
  cases s with
  | none => exact ⟨false, rfl⟩
  | some c => exact ⟨c.locked, rfl⟩

theorem upSteps_stepFailed (migs : List Mig) :
    ∀ (fuel i : Nat) (store : Store) (b : Bool) (p d c : String) (s2 : Store)
      (evs : List Ev),
      store = some ⟨(migs.getD i initialMigration).version, b⟩ →
      upSteps migs fuel i store = (.error (.stepFailed p d c), s2, evs) →
      (∃ b2, s2 = some ⟨p, b2⟩) ∧
      (∃ pre, evs = pre ++ [Ev.step .up d]) ∧
      (∃ j, (migs.getD j initialMigration).version = p ∧
        (migs.getD (j + 1) initialMigration).version = d ∧
        (migs.getD (j + 1) initialMigration).upR = .error c) := by
  intro fuel
  induction fuel with
  | zero =>
      intro i store b p d c s2 evs hst h
      simp [upSteps] at h
  | succ fuel ih =>
      intro i store b p d c s2 evs hst h
      rcases hup : (migs.getD (i + 1) initialMigration).upR with msg | u
      · simp only [upSteps, hup, Prod.mk.injEq, Except.error.injEq,
          MigErr.stepFailed.injEq] at h
        obtain ⟨⟨hp, hd, hc⟩, hs2, hevs⟩ := h
        subst hp; subst hd; subst hc
        refine ⟨⟨b, by rw [← hs2, hst]⟩, ⟨[], by rw [← hevs]; rfl⟩,
          ⟨i, rfl, rfl, hup⟩⟩
      · simp only [upSteps, hup, Prod.mk.injEq] at h
        obtain ⟨h1, h2, h3⟩ := h
        have hrec : upSteps migs fuel (i + 1)
            (updateVersionStore (migs.getD (i + 1) initialMigration).version store)
            = (.error (.stepFailed p d c),
                (upSteps migs fuel (i + 1)
                  (updateVersionStore (migs.getD (i + 1) initialMigration).version
                    store)).2.1,
                (upSteps migs fuel (i + 1)
                  (updateVersionStore (migs.getD (i + 1) initialMigration).version
                    store)).2.2) := by
          rw [← h1]
        obtain ⟨hb2, ⟨pre, hpre⟩, hshape⟩ :=
          ih (i + 1) _ true p d c _ _ rfl hrec
        refine ⟨by rwa [h2] at hb2, ?_, hshape⟩
        refine ⟨Ev.step .up (migs.getD (i + 1) initialMigration).version ::
          Ev.writeVersion (migs.getD (i + 1) initialMigration).version :: pre, ?_⟩
        rw [← h3, hpre]
        rfl

theorem downSteps_stepFailed (migs : List Mig) :
    ∀ (fuel i : Nat) (store : Store) (b : Bool) (p d c : String) (s2 : Store)
      (evs : List Ev),
      store = some ⟨(migs.getD i initialMigration).version, b⟩ →
      downSteps migs fuel i store = (.error (.stepFailed p d c), s2, evs) →
      (∃ b2, s2 = some ⟨p, b2⟩) ∧
      (∃ pre, evs = pre ++ [Ev.step .down p]) ∧
      (∃ j, (migs.getD j initialMigration).version = p ∧
        (migs.getD j initialMigration).downR = .error c ∧
        (migs.getD (j - 1) initialMigration).version = d) := by
  intro fuel
  induction fuel with
  | zero =>
      intro i store b p d c s2 evs hst h
      simp [downSteps] at h
  | succ fuel ih =>
      intro i store b p d c s2 evs hst h
      rcases hdn : (migs.getD i initialMigration).downR with msg | u
      · simp only [downSteps, hdn, Prod.mk.injEq, Except.error.injEq,
          MigErr.stepFailed.injEq] at h
        obtain ⟨⟨hp, hd, hc⟩, hs2, hevs⟩ := h
        subst hp; subst hd; subst hc
        refine ⟨⟨b, by rw [← hs2, hst]⟩, ⟨[], by rw [← hevs]; rfl⟩,
          ⟨i, rfl, hdn, rfl⟩⟩
      · simp only [downSteps, hdn, Prod.mk.injEq] at h
        obtain ⟨h1, h2, h3⟩ := h
        have hrec : downSteps migs fuel (i - 1)
            (updateVersionStore (migs.getD (i - 1) initialMigration).version store)
            = (.error (.stepFailed p d c),
                (downSteps migs fuel (i - 1)
                  (updateVersionStore (migs.getD (i - 1) initialMigration).version
                    store)).2.1,
                (downSteps migs fuel (i - 1)
                  (updateVersionStore (migs.getD (i - 1) initialMigration).version
                    store)).2.2) := by
          rw [← h1]
        obtain ⟨hb2, ⟨pre, hpre⟩, hshape⟩ :=
          ih (i - 1) _ true p d c _ _ rfl hrec
        refine ⟨by rwa [h2] at hb2, ?_, hshape⟩
        refine ⟨Ev.step .down (migs.getD i initialMigration).version ::
          Ev.writeVersion (migs.getD (i - 1) initialMigration).version :: pre, ?_⟩
        rw [← h3, hpre]
        rfl

theorem execute_stepFailed (cfg : Bool) (migs : List Mig) (dir : Direction)
    (target : String) (store : Store) (p d c : String) (s2 : Store)
    (evs2 : List Ev)
    (h : execute cfg migs dir target store = (.error (.stepFailed p d c), s2, evs2)) :
    (∃ b2, s2 = some ⟨p, b2⟩) ∧
    (∃ pre, evs2 = pre ++ [Ev.step dir (failingStepVersion dir p d)]) ∧
    stepFailedShape dir migs p d c := by
  rcases hpt : parseSemVer target with _ | tv
  · simp [execute, hpt] at h
  · simp only [execute, hpt] at h
    by_cases hcfg : cfg = false
    · simp [hcfg] at h
    · simp only [if_neg hcfg] at h
      by_cases hlen : migs.length ≤ 1
      · simp [hlen] at h
      · simp only [if_neg hlen] at h
        rcases hcv : parseSemVer (getControlStore store).1.version with _ | cv
        · simp [hcv] at h
        · simp only [hcv] at h
          by_cases heq : cv = tv
          · simp [heq] at h
          · simp only [if_neg heq] at h
            rcases hsi : findIndexByVersion migs (getControlStore store).1.version
              with _ | si
            · simp [hsi] at h
            · simp only [hsi] at h
              rcases hei : findIndexByVersion migs target with _ | ei
              · simp [hei] at h
              · simp only [hei] at h
                obtain ⟨b, hgc⟩ := getControlStore_inv store
                have hver := (findIndexByVersion_some hsi).2
                have hinv : (getControlStore store).2
                    = some ⟨(migs.getD si initialMigration).version, b⟩ := by
                  rw [hgc, hver]
                cases dir with
                | up =>
                    by_cases hlt : svLt tv cv
                    · simp [hlt] at h
                    · simp only [if_neg hlt] at h
                      obtain ⟨hb2, hpre, hshape⟩ :=
                        upSteps_stepFailed migs (ei - si) si _ b p d c s2 evs2
                          hinv h
                      exact ⟨hb2, hpre, hshape⟩
                | down =>
                    by_cases hlt : svLt cv tv
                    · simp [hlt] at h
                    · simp only [if_neg hlt] at h
                      obtain ⟨hb2, hpre, hshape⟩ :=
                        downSteps_stepFailed migs (si - ei) si _ b p d c s2 evs2
                          hinv h
                      exact ⟨hb2, hpre, hshape⟩

/-- C1: whenever a run in either direction surfaces a step failure, the
error names the previous version, the failed step's destination version
and the underlying cause (which is the failing step function's own
error); the trace of step invocations ends at the failing step (nothing
later is attempted in either direction); and the persisted control
record afterwards holds exactly the previous version — the last
successfully completed step — with the lock released. -/
theorem c1_step_failure_semantics (dir : Direction) (cfg : Bool)
    (migs : List Mig) (target : String) (s0 : Store) (p d c : String)
    (s' : Store) (evs : List Ev)
    (h : run dir cfg migs target s0 = (.error (.stepFailed p d c), s', evs)) :
    s' = some ⟨p, false⟩ ∧
    (∃ pre, stepsOf evs = pre ++ [(dir, failingStepVersion dir p d)]) ∧
    stepFailedShape dir migs p d c ∧
    msgOf (.stepFailed p d c) = s!"migration from {p} to {d}: {c}" := by
  have hx : ∀ (t : String),
      (execute cfg migs dir t (lockStore s0).2).1 = .error (.stepFailed p d c) →
      s' = unlockStore (execute cfg migs dir t (lockStore s0).2).2.1 →
      evs = Ev.lockAttempt (lockStore s0).1 ::
        ((execute cfg migs dir t (lockStore s0).2).2.2 ++ [Ev.unlock]) →
      s' = some ⟨p, false⟩ ∧
      (∃ pre, stepsOf evs = pre ++ [(dir, failingStepVersion dir p d)]) ∧
      stepFailedShape dir migs p d c ∧
      msgOf (.stepFailed p d c) = s!"migration from {p} to {d}: {c}" := by
    intro t h1 h2 h3
    obtain ⟨hb2, ⟨pre, hpre⟩, hshape⟩ :=
      execute_stepFailed cfg migs dir t (lockStore s0).2 p d c _ _ (by rw [← h1])
    obtain ⟨b2, hb2'⟩ := hb2
    refine ⟨?_, ?_, hshape, rfl⟩
    · rw [h2, hb2']
      rfl
    · refine ⟨stepsOf pre, ?_⟩
      rw [h3, hpre]
      simp
  cases dir with
  | up =>
      simp only [run, upRun, Prod.mk.injEq] at h
      exact hx (resolveLatest migs target) h.1 h.2.1.symm h.2.2.symm
  | down =>
      simp only [run, downRun, Prod.mk.injEq] at h
      exact hx target h.1 h.2.1.symm h.2.2.symm

theorem c1_step_failure_semantics_witness :
    run .up true regFail "latest" (some ⟨"0.0.0", false⟩)
      = (.error (.stepFailed "0.0.1" "0.1.2" "boom"),
          some ⟨"0.0.1", false⟩,
          [.lockAttempt true, .step .up "0.0.1", .writeVersion "0.0.1",
            .step .up "0.1.2", .unlock]) ∧
    (some (⟨"0.0.1", false⟩ : Control) = some ⟨"0.0.1", false⟩ ∧
      (∃ pre, stepsOf [Ev.lockAttempt true, .step .up "0.0.1",
        .writeVersion "0.0.1", .step .up "0.1.2", .unlock]
          = pre ++ [(.up, failingStepVersion .up "0.0.1" "0.1.2")]) ∧
      stepFailedShape .up regFail "0.0.1" "0.1.2" "boom" ∧
      msgOf (.stepFailed "0.0.1" "0.1.2" "boom")
        = "migration from 0.0.1 to 0.1.2: boom") :=
  ⟨by decide,
   c1_step_failure_semantics .up true regFail "latest" (some ⟨"0.0.0", false⟩)
     "0.0.1" "0.1.2" "boom" (some ⟨"0.0.1", false⟩)
     [.lockAttempt true, .step .up "0.0.1", .writeVersion "0.0.1",
       .step .up "0.1.2", .unlock] (by decide)⟩

/-- C9: in both engine encodings, `add` rejects with a validation error
any step whose `up` or `down` is not callable or whose version is not a
well-formed version strictly greater than the reserved zero version (in
particular the zero version itself, `0.0.0` or `0`, is rejected). -/
theorem c9_add_validation (migs : List Mig) (m : Mig) (migsI : List MigInt)
    (mi : MigInt) (h1 : ¬ validStep m) (h2 : ¬ validStepInt mi) :
    (∃ msg, add migs m = .error (.validation msg)) ∧
    (∃ msg, addInt migsI mi = .error (.validation msg)) := by
  constructor
  · by_cases hup : m.upIsFn = false
    · exact ⟨"migration must supply an up function", by simp [add, hup]⟩
    by_cases hdn : m.downIsFn = false
    · exact ⟨"migration must supply a down function", by simp [add, hup, hdn]⟩
    by_cases hvs : m.versionIsString = false
    · exact ⟨"migration must supply a SemVer version string",
        by simp [add, hup, hdn, hvs]⟩
    rcases hpv : parseSemVer m.version with _ | sv
    · exact ⟨"migration must supply a SemVer version string",
        by simp [add, hup, hdn, hvs, hpv]⟩
    have hzero : ¬ svLt zeroVer sv := by
      intro hz
      exact h1 ⟨by simpa using hup, by simpa using hdn, by simpa using hvs,
        sv, hpv, hz⟩
    exact ⟨"migration version must be greater than 0.0.0",
      by simp [add, hup, hdn, hvs, hpv, hzero]⟩
  · by_cases hup : mi.upIsFn = false
    · exact ⟨"Expected argument `up` to be of type `function`",
        by simp [addInt, hup]⟩
    by_cases hdn : mi.downIsFn = false
    · exact ⟨"Expected argument `down` to be of type `function`",
        by simp [addInt, hup, hdn]⟩
    by_cases hvn : mi.versionIsNumber = false
    · exact ⟨"Expected number `version` to be greater than 0",
        by simp [addInt, hup, hdn, hvn]⟩
    have hle : mi.version ≤ 0 := by
      by_contra hgt
      exact h2 ⟨by simpa using hup, by simpa using hdn, by simpa using hvn,
        by omega⟩
    exact ⟨"Expected number `version` to be greater than 0",
      by simp [addInt, hup, hdn, hvn, hle]⟩

theorem c9_add_validation_witness :
    (∃ msg, add registryStart { version := "0.0.0", name := "zero" }
      = .error (.validation msg)) ∧
    (∃ msg, addInt [] { version := 0 } = .error (.validation msg)) :=
  c9_add_validation registryStart { version := "0.0.0", name := "zero" }
    [] { version := 0 }
    (by
      rintro ⟨-, -, -, sv, hpv, hz⟩
      have hp0 : parseSemVer "0.0.0" = some zeroVer := by decide
      rw [hp0] at hpv
      cases hpv
      exact svLt_irrefl zeroVer hz)
    (by
      rintro ⟨-, -, -, hpos⟩
      exact absurd hpos (by decide))

theorem svLt_zero (a : SemVer) : ¬ svLt a zeroVer := by
  obtain ⟨x, y, z⟩ := a
  simp only [svLt, zeroVer]
  omega

theorem insertByVersion_perm (m : Mig) (l : List Mig) :
    (insertByVersion m l).Perm (m :: l) := by
  induction l with
  | nil => exact List.Perm.refl _
  | cons a t ih =>
      by_cases h : svLt (versionKey m) (versionKey a)
      · simp only [insertByVersion, if_pos h]
        exact List.Perm.refl _
      · simp only [insertByVersion, if_neg h]
        exact (ih.cons a).trans (List.Perm.swap m a t)

theorem foldl_insert_perm :
    ∀ (l acc : List Mig),
      (l.foldl (fun acc m => insertByVersion m acc) acc).Perm (acc ++ l) := by
  intro l
  induction l with
  | nil => intro acc; simp
  | cons a t ih =>
      intro acc
      simp only [List.foldl_cons]
      have h1 := ih (insertByVersion a acc)
      have h2 : (insertByVersion a acc ++ t).Perm (a :: (acc ++ t)) :=
        (insertByVersion_perm a acc).append_right t
      exact h1.trans (h2.trans List.perm_middle.symm)

theorem sortByVersion_perm (l : List Mig) : (sortByVersion l).Perm l := by
  have h := foldl_insert_perm l []
  simpa [sortByVersion] using h

theorem insertByVersion_pairwise (m : Mig) :
    ∀ (l : List Mig),
      l.Pairwise (fun a b => svLe (versionKey a) (versionKey b)) →
      (insertByVersion m l).Pairwise
        fun a b => svLe (versionKey a) (versionKey b) := by
  intro l
  induction l with
  | nil =>
      intro _
      simp [insertByVersion]
  | cons a t ih =>
      intro h
      rw [List.pairwise_cons] at h
      obtain ⟨ha, ht⟩ := h
      by_cases hlt : svLt (versionKey m) (versionKey a)
      · simp only [insertByVersion, if_pos hlt]
        refine List.pairwise_cons.mpr ⟨?_, List.pairwise_cons.mpr ⟨ha, ht⟩⟩
        intro x hx
        rcases List.mem_cons.mp hx with rfl | hx
        · exact svLt_asymm hlt
        · intro hxm
          exact ha x hx (svLt_trans hxm hlt)
      · simp only [insertByVersion, if_neg hlt]
        refine List.pairwise_cons.mpr ⟨?_, ih ht⟩
        intro x hx
        rcases List.mem_cons.mp ((insertByVersion_perm m t).mem_iff.mp hx)
          with rfl | hx
        · exact hlt
        · exact ha x hx

theorem insertByVersion_sorted (m : Mig) (l : List Mig)
    (h : sortedByVersion l) : sortedByVersion (insertByVersion m l) := by
  rw [sortedByVersion] at h ⊢
  exact insertByVersion_pairwise m l h

theorem foldl_insert_sorted :
    ∀ (l acc : List Mig), sortedByVersion acc →
      sortedByVersion (l.foldl (fun acc m => insertByVersion m acc) acc) := by
  intro l
  induction l with
  | nil => intro acc h; simpa using h
  | cons a t ih =>
      intro acc h
      simp only [List.foldl_cons]
      exact ih (insertByVersion a acc) (insertByVersion_sorted a acc h)

theorem sortByVersion_sorted (l : List Mig) :
    sortedByVersion (sortByVersion l) := by
  refine foldl_insert_sorted l [] ?_
  rw [sortedByVersion]
  exact List.Pairwise.nil

theorem add_ok {migs : List Mig} {m : Mig} {l : List Mig}
    (h : add migs m = .ok l) :
    l = sortByVersion (migs ++ [m]) ∧
      ∃ sv, parseSemVer m.version = some sv ∧ svLt zeroVer sv := by
  by_cases hup : m.upIsFn = false
  · simp [add, hup] at h
  by_cases hdn : m.downIsFn = false
  · simp [add, hup, hdn] at h
  by_cases hvs : m.versionIsString = false
  · simp [add, hup, hdn, hvs] at h
  rcases hpv : parseSemVer m.version with _ | sv
  · simp [add, hup, hdn, hvs, hpv] at h
  by_cases hz : svLt zeroVer sv
  · simp only [add, if_neg hup, if_neg hdn, if_neg hvs, hpv, if_pos hz,
      Except.ok.injEq] at h
    exact ⟨h.symm, sv, rfl, hz⟩
  · simp [add, hup, hdn, hvs, hpv, hz] at h

theorem addAll_ok :
    ∀ {ms : List Mig} {migs l : List Mig}, addAll migs ms = .ok l →
      l.Perm (migs ++ ms) ∧
      (∀ x ∈ ms, ∃ sv, parseSemVer x.version = some sv ∧ svLt zeroVer sv) ∧
      (ms ≠ [] → sortedByVersion l) ∧ (ms = [] → l = migs) := by
  intro ms
  induction ms with
  | nil =>
      intro migs l h
      simp only [addAll, Except.ok.injEq] at h
      subst h
      exact ⟨by simp, by simp, fun hne => absurd rfl hne, fun _ => rfl⟩
  | cons m rest ih =>
      intro migs l h
      rcases ha : add migs m with e | migs'
      · rw [addAll, ha] at h
        cases h
      · rw [addAll, ha] at h
        obtain ⟨hsorted0, sv, hsv, hz⟩ := add_ok ha
        obtain ⟨hperm, hvalid, hsorted, hnil⟩ := ih h
        refine ⟨?_, ?_, ?_, by simp⟩
        · have h1 : (migs' ++ rest).Perm ((migs ++ [m]) ++ rest) := by
            rw [hsorted0]
            exact (sortByVersion_perm (migs ++ [m])).append_right rest
          have h2 : (migs ++ [m]) ++ rest = migs ++ m :: rest := by
            simp
          exact hperm.trans (h1.trans (by rw [h2]))
        · intro x hx
          rcases List.mem_cons.mp hx with rfl | hx
          · exact ⟨sv, hsv, hz⟩
          · exact hvalid x hx
        · intro _
          rcases hrest : rest with _ | ⟨r, rs⟩
          · subst hrest
            rw [hnil rfl, hsorted0]
            exact sortByVersion_sorted _
          · exact hsorted (by simp [hrest])

theorem strictSorted_of_sorted_nodup {l : List Mig}
    (hs : sortedByVersion l) (hn : (l.map versionKey).Nodup) :
    strictSortedByVersion l := by
  rw [sortedByVersion] at hs
  have hpw : l.Pairwise fun a b => versionKey a ≠ versionKey b :=
    List.pairwise_map.mp hn
  rw [strictSortedByVersion]
  refine List.Pairwise.imp ?_ (hs.and hpw)
  rintro a b ⟨hle, hne⟩
  rcases svLt_total (versionKey a) (versionKey b) with h | h | h
  · exact h
  · exact absurd h hne
  · exact absurd h hle

theorem strictSorted_perm_eq {l1 l2 : List Mig} (hp : l1.Perm l2)
    (h1 : strictSortedByVersion l1) (h2 : strictSortedByVersion l2) :
    l1 = l2 := by
  haveI : IsAntisymm Mig (fun a b => svLt (versionKey a) (versionKey b)) :=
    ⟨fun a b hab hba => absurd hba (svLt_asymm hab)⟩
  rw [strictSortedByVersion] at h1 h2
  exact List.eq_of_perm_of_sorted hp h1 h2

theorem registry_head (l ms : List Mig)
    (hsort : sortedByVersion l)
    (hperm : l.Perm (initialMigration :: ms))
    (hpos : ∀ x ∈ ms, svLt zeroVer (versionKey x)) :
    ∃ t, l = initialMigration :: t ∧ t.Perm ms := by
  rcases hl : l with _ | ⟨h, t⟩
  · rw [hl] at hperm
    have := hperm.length_eq
    simp at this
  · rw [hl] at hperm hsort
    have hmem : h ∈ initialMigration :: ms :=
      hperm.mem_iff.mp (List.mem_cons_self h t)
    rcases List.mem_cons.mp hmem with rfl | hmem
    · exact ⟨t, rfl, hperm.cons_inv⟩
    · exfalso
      have hz : svLt zeroVer (versionKey h) := hpos h hmem
      have hinit : initialMigration ∈ h :: t :=
        hperm.mem_iff.mpr (List.mem_cons_self initialMigration ms)
      rcases List.mem_cons.mp hinit with heq | hinit
      · rw [← heq] at hz
        have hzk : versionKey initialMigration = zeroVer := by decide
        rw [hzk] at hz
        exact svLt_irrefl zeroVer hz
      · rw [sortedByVersion] at hsort
        have hle := (List.pairwise_cons.mp hsort).1 initialMigration hinit
        rw [svLe] at hle
        have hzk : versionKey initialMigration = zeroVer := by decide
        rw [hzk] at hle
        exact hle hz

theorem versionKey_of_valid {x : Mig} {sv : SemVer}
    (h : parseSemVer x.version = some sv) : versionKey x = sv := by
  rw [versionKey, h]
  rfl

/-- C7 counterexample: `add` does not preserve the "no two entries share
a version" part of the claimed invariant — registering a second step at
an already-used version is accepted, after which two registry entries
share version `0.0.1`. -/
theorem c7_counterexample :
    add registryStart mig001 = .ok [initialMigration, mig001] ∧
    add [initialMigration, mig001] mig001dup
      = .ok [initialMigration, mig001, mig001dup] ∧
    ¬ ([initialMigration, mig001, mig001dup].map Mig.version).Nodup ∧
    ¬ ([initialMigration, mig001, mig001dup].map versionKey).Nodup := by
  decide

/-- C7 amended: provided the registered versions are pairwise distinct,
the registry invariant holds after any sequence of `add`s — sorted
ascending, the synthetic zero step first, no two entries sharing a
version — the resulting registry is independent of registration order,
and `getMigrations` returns exactly the caller-registered steps (the
registry minus the zero step) in ascending version order.  `reset`
restores the invariant trivially.  (Without the distinctness proviso the
sortedness and zero-step-first parts still hold, but duplicate versions
are accepted — see the counterexample.) -/
theorem c7_registry_invariant (ms ms' r1 r2 : List Mig)
    (hperm : ms.Perm ms') (hnd : (ms.map versionKey).Nodup)
    (h1 : addAll registryStart ms = .ok r1)
    (h2 : addAll registryStart ms' = .ok r2) :
    registryInvariant r1 ∧ r1 = r2 ∧
    (getMigrations r1).Perm ms ∧ sortedByVersion (getMigrations r1) ∧
    registryInvariant resetRegistry := by
  have hreset : registryInvariant resetRegistry := by
    refine ⟨rfl, ?_, by decide⟩
    rw [sortedByVersion]
    decide
  obtain ⟨hp1, hv1, hs1, hn1⟩ := addAll_ok h1
  obtain ⟨hp2, hv2, hs2, hn2⟩ := addAll_ok h2
  by_cases hms : ms = []
  · subst hms
    have hms' : ms' = [] := hperm.symm.eq_nil
    subst hms'
    have hr1 : r1 = registryStart := hn1 rfl
    have hr2 : r2 = registryStart := hn2 rfl
    subst hr1; subst hr2
    refine ⟨hreset, rfl, by simp [getMigrations, registryStart], ?_, hreset⟩
    rw [sortedByVersion]
    simp [getMigrations, registryStart]
  · have hne : ms ≠ [] := hms
    have hne' : ms' ≠ [] := by
      intro he
      rw [he] at hperm
      exact hne hperm.eq_nil
    have hsort1 : sortedByVersion r1 := hs1 hne
    have hsort2 : sortedByVersion r2 := hs2 hne'
    have hpos : ∀ x ∈ ms, svLt zeroVer (versionKey x) := by
      intro x hx
      obtain ⟨sv, hsv, hz⟩ := hv1 x hx
      rwa [versionKey_of_valid hsv]
    have hpos' : ∀ x ∈ ms', svLt zeroVer (versionKey x) := by
      intro x hx
      exact hpos x (hperm.mem_iff.mpr hx)
    have hp1' : r1.Perm (initialMigration :: ms) := hp1
    have hp2' : r2.Perm (initialMigration :: ms') := hp2
    have hnd' : (ms'.map versionKey).Nodup :=
      ((hperm.map versionKey).nodup_iff).mp hnd
    have hzn : zeroVer ∉ ms.map versionKey := by
      intro hmem
      obtain ⟨x, hx, hkey⟩ := List.mem_map.mp hmem
      exact svLt_irrefl zeroVer (hkey ▸ hpos x hx)
    have hzn' : zeroVer ∉ ms'.map versionKey := by
      intro hmem
      obtain ⟨x, hx, hkey⟩ := List.mem_map.mp hmem
      exact svLt_irrefl zeroVer (hkey ▸ hpos' x hx)
    have hkeys1 : (r1.map versionKey).Nodup := by
      refine ((hp1'.map versionKey).nodup_iff).mpr ?_
      have hzk : versionKey initialMigration = zeroVer := by decide
      simp only [List.map_cons, hzk]
      exact List.nodup_cons.mpr ⟨hzn, hnd⟩
    have hkeys2 : (r2.map versionKey).Nodup := by
      refine ((hp2'.map versionKey).nodup_iff).mpr ?_
      have hzk : versionKey initialMigration = zeroVer := by decide
      simp only [List.map_cons, hzk]
      exact List.nodup_cons.mpr ⟨hzn', hnd'⟩
    obtain ⟨t1, hr1, ht1⟩ := registry_head r1 ms hsort1 hp1' hpos
    have heq12 : r1 = r2 := by
      refine strictSorted_perm_eq ?_
        (strictSorted_of_sorted_nodup hsort1 hkeys1)
        (strictSorted_of_sorted_nodup hsort2 hkeys2)
      exact hp1'.trans ((hperm.cons initialMigration).trans hp2'.symm)
    refine ⟨⟨by rw [hr1]; rfl, hsort1, hkeys1⟩, heq12, ?_, ?_, hreset⟩
    · rw [hr1]
      exact ht1
    · rw [hr1] at hsort1
      rw [sortedByVersion] at hsort1 ⊢
      rw [hr1]
      exact (List.pairwise_cons.mp hsort1).2

theorem c7_registry_invariant_witness :
    ([mig012, mig001].Perm [mig001, mig012] ∧
      ([mig012, mig001].map versionKey).Nodup ∧
      addAll registryStart [mig012, mig001] = .ok regOk ∧
      addAll registryStart [mig001, mig012] = .ok regOk) ∧
    (registryInvariant regOk ∧ regOk = regOk ∧
      (getMigrations regOk).Perm [mig012, mig001] ∧
      sortedByVersion (getMigrations regOk) ∧
      registryInvariant resetRegistry) :=
  ⟨⟨by decide, by decide, by decide, by decide⟩,
   c7_registry_invariant [mig012, mig001] [mig001, mig012] regOk regOk
     (by decide) (by decide) (by decide) (by decide)⟩

end Mgdb
